import Mathlib

/-!
Shallow embedding of the community-aware layout engine of
`Desktop/Scientific Research/utils/draw.py`: `community_layout` and its
helpers `_position_communities`, `_position_nodes` and
`_find_between_community_edges`.

Modelling conventions:
* networkx graphs become a structure holding the node list and the edge
  list (iteration order of `g.nodes()` / `g.edges()` is the list order);
* Python dicts become insertion-ordered association lists: `d[k] = v`
  replaces in place when the key exists and appends otherwise, exactly
  like CPython;
* a Python dict lookup that may raise `KeyError` is modelled in the
  `Option` monad (`none` = the call raises);
* `nx.spring_layout` is an external collaborator; it is modelled as an
  abstract solver function (the fixed random seed is folded into the
  function) that returns one 2-D coordinate per node of the graph it is
  given, which is the only part of its contract the layout engine uses.
  Coordinates are rational pairs, so every produced coordinate is a
  finite number by construction.
-/

abbrev Node := Nat
abbrev Comm := Nat

/-- A 2-D coordinate (numpy length-2 array in the source). -/
structure Point where
  x : ℚ
  y : ℚ
  deriving DecidableEq, Repr

/-- Component-wise numpy array addition used in `pos_communities[node] + pos_nodes[node]`. -/
instance : Add Point where
  add a b := ⟨a.x + b.x, a.y + b.y⟩

/-- A networkx graph: node list plus edge list. -/
structure Graph where
  nodes : List Node
  edges : List (Node × Node)
  deriving DecidableEq, Repr

/-- The weighted meta-graph (`hypergraph` in the source): community nodes and
weighted directed edges between communities. -/
structure WGraph where
  nodes : List Comm
  edges : List ((Comm × Comm) × Nat)
  deriving DecidableEq, Repr

/-- Python dict lookup `d[k]` (`none` models `KeyError`). -/
def lookupD {α β : Type} [DecidableEq α] : List (α × β) → α → Option β
  | [], _ => none
  | (k1, v) :: rest, k => if k1 = k then some v else lookupD rest k

/-- The key sequence of a Python dict (insertion order). -/
def keysD {α β : Type} (d : List (α × β)) : List α := d.map Prod.fst

/-- Python dict assignment `d[k] = v`: replaces in place if the key exists,
otherwise appends at the end. -/
def insertD {α β : Type} [DecidableEq α] : List (α × β) → α → β → List (α × β)
  | [], k, v => [(k, v)]
  | (k1, v1) :: rest, k, v =>
    if k1 = k then (k1, v) :: rest else (k1, v1) :: insertD rest k v

/-- Python `d1.update(d2)`. -/
def updateD {α β : Type} [DecidableEq α] (d1 d2 : List (α × β)) : List (α × β) :=
  d2.foldl (fun acc e => insertD acc e.1 e.2) d1

/-- networkx `g.subgraph(ns)`: the induced subgraph on the members of `ns`
that are present in `g` (node ids absent from `g` are dropped). -/
def Graph.subgraph (g : Graph) (ns : List Node) : Graph :=
  ⟨g.nodes.filter (fun n => decide (n ∈ ns)),
   g.edges.filter (fun e => decide (e.1 ∈ ns ∧ e.2 ∈ ns))⟩

/-- Abstract model of `nx.spring_layout(g, scale=s)` on an ordinary graph:
the solver (with its random seed folded in) assigns one coordinate to each
node of the graph, keyed exactly by the graph's nodes. -/
def springLayout (solver : Graph → ℚ → Node → Point) (g : Graph) (scale : ℚ) :
    List (Node × Point) :=
  g.nodes.map (fun n => (n, solver g scale n))

/-- Abstract model of `nx.spring_layout(hypergraph, scale=s)` on the weighted
meta-graph. -/
def springLayoutW (solverM : WGraph → ℚ → Comm → Point) (h : WGraph) (scale : ℚ) :
    List (Comm × Point) :=
  h.nodes.map (fun c => (c, solverM h scale c))

/-- Loop body of `_find_between_community_edges`: walk `g.edges()`, look up
both endpoint communities (a missing partition entry raises `KeyError`,
modelled by `none`), and for a crossing edge append it to the entry of the
ordered community pair, creating the entry when absent. -/
def findBCEgo (p : List (Node × Comm)) :
    List (Node × Node) → List ((Comm × Comm) × List (Node × Node)) →
    Option (List ((Comm × Comm) × List (Node × Node)))
  | [], acc => some acc
  | e :: rest, acc =>
    match lookupD p e.1, lookupD p e.2 with
    | some ci, some cj =>
      if ci = cj then
        findBCEgo p rest acc
      else
        match lookupD acc (ci, cj) with
        | some l => findBCEgo p rest (insertD acc (ci, cj) (l ++ [e]))
        | none => findBCEgo p rest (insertD acc (ci, cj) [e])
    | _, _ => none

/-- Embedding of `_find_between_community_edges(g, partition)`. -/
def _find_between_community_edges (g : Graph) (p : List (Node × Comm)) :
    Option (List ((Comm × Comm) × List (Node × Node))) :=
  findBCEgo p g.edges []

/-- The distinct community ids, `set(partition.values())`. -/
def communitiesOf (p : List (Node × Comm)) : List Comm :=
  (p.map Prod.snd).dedup

/-- The weighted meta-graph built in `_position_communities`: one node per
community (`add_nodes_from(communities)`), one weighted edge per crossing
community pair with weight `len(edges)`.  Every key of the crossing-edge map
is a pair of partition values, so `add_edge` never adds a node beyond
`communities`. -/
def metaGraph (g : Graph) (p : List (Node × Comm)) : Option WGraph :=
  match _find_between_community_edges g p with
  | none => none
  | some bce => some ⟨communitiesOf p, bce.map (fun e => (e.1, e.2.length))⟩

/-- Loop `for node, community in partition.items(): pos[node] = pos_communities[community]`
of `_position_communities` (a missing community anchor would raise `KeyError`). -/
def assignAnchors (pc : List (Comm × Point)) :
    List (Node × Comm) → List (Node × Point) → Option (List (Node × Point))
  | [], pos => some pos
  | (n, c) :: rest, pos =>
    match lookupD pc c with
    | some pt => assignAnchors pc rest (insertD pos n pt)
    | none => none

/-- Embedding of `_position_communities(g, partition, scale=s)`. -/
def _position_communities (solverM : WGraph → ℚ → Comm → Point) (g : Graph)
    (p : List (Node × Comm)) (scale : ℚ) : Option (List (Node × Point)) :=
  match metaGraph g p with
  | none => none
  | some hyper => assignAnchors (springLayoutW solverM hyper scale) p []

/-- Loop of `_position_nodes` that groups partition items by community with the
`try/except` append pattern. -/
def groupGo : List (Node × Comm) → List (Comm × List Node) → List (Comm × List Node)
  | [], acc => acc
  | (n, c) :: rest, acc =>
    match lookupD acc c with
    | some l => groupGo rest (insertD acc c (l ++ [n]))
    | none => groupGo rest (insertD acc c [n])

/-- The `communities` dict of `_position_nodes`. -/
def groupByCommunity (p : List (Node × Comm)) : List (Comm × List Node) :=
  groupGo p []

/-- Embedding of `_position_nodes(g, partition, scale=s)`: for each community
lay out the induced subgraph independently and merge with `pos.update(...)`.
No lookup in it can raise, so it is total. -/
def _position_nodes (solver : Graph → ℚ → Node → Point) (g : Graph)
    (p : List (Node × Comm)) (scale : ℚ) : List (Node × Point) :=
  (groupByCommunity p).foldl
    (fun pos e => updateD pos (springLayout solver (g.subgraph e.2) scale)) []

/-- Final loop of `community_layout`:
`for node in g.nodes(): pos[node] = pos_communities[node] + pos_nodes[node]`. -/
def combinePos (posC posN : List (Node × Point)) :
    List Node → List (Node × Point) → Option (List (Node × Point))
  | [], pos => some pos
  | n :: rest, pos =>
    match lookupD posC n, lookupD posN n with
    | some a, some o => combinePos posC posN rest (insertD pos n (a + o))
    | _, _ => none

/-- Embedding of `community_layout(g, partition)`: anchors at scale `3.`,
local offsets at scale `1.`, summed component-wise per graph node. -/
def community_layout (solverM : WGraph → ℚ → Comm → Point)
    (solver : Graph → ℚ → Node → Point) (g : Graph) (p : List (Node × Comm)) :
    Option (List (Node × Point)) :=
  match _position_communities solverM g p 3 with
  | none => none
  | some posC => combinePos posC (_position_nodes solver g p 1) g.nodes []

/-- The member list of community `c`: partition keys mapped to `c`, in
partition order (the list `communities[c]` accumulates in `_position_nodes`). -/
def members (p : List (Node × Comm)) (c : Comm) : List Node :=
  (p.filter (fun x => decide (x.2 = c))).map Prod.fst

/-- The crossing edges from community `ci` to community `cj`, in edge order. -/
def crossEdges (g : Graph) (p : List (Node × Comm)) (ci cj : Comm) :
    List (Node × Node) :=
  g.edges.filter (fun e => decide (lookupD p e.1 = some ci ∧ lookupD p e.2 = some cj))

/-- The crossing edges from `ci` to `cj` among an edge list (loop-invariant
form of `crossEdges`). -/
def crossList (p : List (Node × Comm)) (es : List (Node × Node)) (ci cj : Comm) :
    List (Node × Node) :=
  es.filter (fun e => decide (lookupD p e.1 = some ci ∧ lookupD p e.2 = some cj))

/-- How one entry of the crossing-edge dict grows while the edge loop runs:
an existing entry accumulates the new crossing edges at its end, a missing
entry appears exactly when a crossing edge for its pair exists. -/
def mergeBCE (o : Option (List (Node × Node))) (l : List (Node × Node)) :
    Option (List (Node × Node)) :=
  match o with
  | some l0 => some (l0 ++ l)
  | none => if l = [] then none else some l

/-- The caller-visible state of a `community_layout` call: the graph and the
partition dict the caller passed in.  The source only ever reads them
(`g.nodes()`, `g.edges()`, `g.subgraph(...)`, `partition.items()`,
`partition[...]`), so the embedding threads this state through the final
loop and returns it. -/
structure LayoutState where
  g : Graph
  partition : List (Node × Comm)
  deriving DecidableEq, Repr

/-- State-threaded form of the final loop of `community_layout`: the state is
carried through every iteration unchanged (no statement of the loop writes to
the graph or the partition) while the fresh `pos` dict is built. -/
def combineStGo (posC posN : List (Node × Point)) :
    List Node → LayoutState → List (Node × Point) →
    LayoutState × Option (List (Node × Point))
  | [], s, pos => (s, some pos)
  | n :: rest, s, pos =>
    match lookupD posC n, lookupD posN n with
    | some a, some o => combineStGo posC posN rest s (insertD pos n (a + o))
    | _, _ => (s, none)

/-- State-threaded embedding of `community_layout`: runs on the caller's
state and returns the (unchanged) state next to the result. -/
def community_layoutSt (solverM : WGraph → ℚ → Comm → Point)
    (solver : Graph → ℚ → Node → Point) (s : LayoutState) :
    LayoutState × Option (List (Node × Point)) :=
  match _position_communities solverM s.g s.partition 3 with
  | none => (s, none)
  | some posC =>
    combineStGo posC (_position_nodes solver s.g s.partition 1) s.g.nodes s []

/-- A concrete deterministic solver used to instantiate theorems. -/
def exSolver : Graph → ℚ → Node → Point := fun _ sc n => ⟨sc, n⟩

/-- A concrete deterministic meta-graph solver used to instantiate theorems. -/
def exSolverW : WGraph → ℚ → Comm → Point := fun _ sc c => ⟨c, sc⟩

/-- The spec's between-community example graph: edges (1,2), (2,3), (3,4). -/
def g34 : Graph := ⟨[1, 2, 3, 4], [(1, 2), (2, 3), (3, 4)]⟩

/-- The spec's example partition: 1, 2 in community 0 (A); 3, 4 in 1 (B). -/
def p34 : List (Node × Comm) := [(1, 0), (2, 0), (3, 1), (4, 1)]

/-- The crossing-edge dict the example must produce. -/
def m34 : List ((Comm × Comm) × List (Node × Node)) := [((0, 1), [(2, 3)])]

/-- A single isolated node in a singleton community. -/
def gOne : Graph := ⟨[0], []⟩

/-- The singleton partition for `gOne`. -/
def pOne : List (Node × Comm) := [(0, 5)]

/-- The empty graph. -/
def gEmpty : Graph := ⟨[], []⟩

/-- A partition that covers `gOne` and has one extra key (node 7) absent
from the graph. -/
def pExtra : List (Node × Comm) := [(0, 1), (7, 2)]

/-! ### Association-list (Python dict) lemmas -/

theorem lookupD_insertD_self {α β : Type} [DecidableEq α] (d : List (α × β)) (k : α) (v : β) :
    lookupD (insertD d k v) k = some v := by
  induction d with
  | nil => simp [insertD, lookupD]
  | cons e rest ih =>
    obtain ⟨k1, v1⟩ := e
    by_cases h : k1 = k
    · simp [insertD, h, lookupD]
    · simp [insertD, h, lookupD, ih]

theorem lookupD_insertD_ne {α β : Type} [DecidableEq α] (d : List (α × β)) (k k2 : α) (v : β)
    (h : k2 ≠ k) : lookupD (insertD d k v) k2 = lookupD d k2 := by
  induction d with
  | nil => simp [insertD, lookupD, Ne.symm h]
  | cons e rest ih =>
    obtain ⟨k1, v1⟩ := e
    by_cases h1 : k1 = k
    · subst h1
      simp [insertD, lookupD, Ne.symm h]
    · by_cases h2 : k1 = k2
      · subst h2
        simp [insertD, lookupD, h, h1]
      · simp [insertD, lookupD, h1, h2, ih]

theorem lookupD_isSome_iff_mem_keysD {α β : Type} [DecidableEq α] (d : List (α × β)) (k : α) :
    (lookupD d k).isSome ↔ k ∈ keysD d := by
  induction d with
  | nil => simp [lookupD, keysD]
  | cons e rest ih =>
    obtain ⟨k1, v1⟩ := e
    by_cases h : k1 = k
    · simp [lookupD, keysD, h]
    · simp only [lookupD, if_neg h]
      simp only [keysD, List.map_cons, List.mem_cons] at ih ⊢
      rw [ih]
      constructor
      · exact Or.inr
      · rintro (h2 | h2)
        · exact absurd h2.symm h
        · exact h2

theorem lookupD_eq_none_of_not_mem_keysD {α β : Type} [DecidableEq α] (d : List (α × β)) (k : α)
    (h : k ∉ keysD d) : lookupD d k = none := by
  rcases ho : lookupD d k with _ | v
  · rfl
  · exact absurd ((lookupD_isSome_iff_mem_keysD d k).1 (by simp [ho])) h

theorem mem_of_lookupD_eq_some {α β : Type} [DecidableEq α] (d : List (α × β)) (k : α) (v : β)
    (h : lookupD d k = some v) : (k, v) ∈ d := by
  induction d with
  | nil => simp [lookupD] at h
  | cons e rest ih =>
    obtain ⟨k1, v1⟩ := e
    by_cases h1 : k1 = k
    · subst h1
      simp [lookupD] at h
      simp [h]
    · simp [lookupD, h1] at h
      exact List.mem_cons_of_mem _ (ih h)

theorem lookupD_eq_some_of_mem_nodup {α β : Type} [DecidableEq α] (d : List (α × β)) (k : α)
    (v : β) (hnd : (keysD d).Nodup) (h : (k, v) ∈ d) : lookupD d k = some v := by
  induction d with
  | nil => simp at h
  | cons e rest ih =>
    obtain ⟨k1, v1⟩ := e
    simp only [keysD, List.map_cons, List.nodup_cons] at hnd
    rcases List.mem_cons.1 h with h1 | h1
    · injection h1 with hk hv
      subst hk
      subst hv
      simp [lookupD]
    · have hk : k1 ≠ k := by
        intro hh
        subst hh
        exact hnd.1 (by simpa [keysD] using List.mem_map_of_mem Prod.fst h1)
      simp only [lookupD, if_neg hk]
      exact ih hnd.2 h1

theorem keysD_insertD_mem {α β : Type} [DecidableEq α] (d : List (α × β)) (k : α) (v : β)
    (h : k ∈ keysD d) : keysD (insertD d k v) = keysD d := by
  induction d with
  | nil => simp [keysD] at h
  | cons e rest ih =>
    obtain ⟨k1, v1⟩ := e
    by_cases h1 : k1 = k
    · simp [insertD, h1, keysD]
    · have hcons : keysD ((k1, v1) :: rest) = k1 :: keysD rest := rfl
      rw [hcons] at h
      rcases List.mem_cons.1 h with h2 | h2
      · exact absurd h2.symm h1
      · have hrec := ih h2
        simp only [insertD, if_neg h1]
        have hcons2 : keysD ((k1, v1) :: insertD rest k v) = k1 :: keysD (insertD rest k v) := rfl
        rw [hcons2, hrec, hcons]

theorem keysD_insertD_not_mem {α β : Type} [DecidableEq α] (d : List (α × β)) (k : α) (v : β)
    (h : k ∉ keysD d) : keysD (insertD d k v) = keysD d ++ [k] := by
  induction d with
  | nil => simp [insertD, keysD]
  | cons e rest ih =>
    obtain ⟨k1, v1⟩ := e
    simp only [keysD, List.map_cons, List.mem_cons, not_or] at h
    have h1 : k1 ≠ k := fun hh => h.1 hh.symm
    simp only [insertD, if_neg h1, keysD, List.map_cons, List.cons_append,
      List.cons.injEq, true_and]
    simpa [keysD] using ih (by simpa [keysD] using h.2)

theorem keysD_insertD_nodup {α β : Type} [DecidableEq α] (d : List (α × β)) (k : α) (v : β)
    (h : (keysD d).Nodup) : (keysD (insertD d k v)).Nodup := by
  by_cases hm : k ∈ keysD d
  · rw [keysD_insertD_mem d k v hm]
    exact h
  · rw [keysD_insertD_not_mem d k v hm]
    simpa using List.Nodup.append h (List.nodup_singleton k) (by simpa using hm)

theorem lookupD_insertD_isSome {α β : Type} [DecidableEq α] (d : List (α × β)) (k k2 : α)
    (v : β) (h : (lookupD d k2).isSome) : (lookupD (insertD d k v) k2).isSome := by
  by_cases hk : k2 = k
  · subst hk
    simp [lookupD_insertD_self]
  · rw [lookupD_insertD_ne d k k2 v hk]
    exact h

theorem lookupD_updateD_not_mem {α β : Type} [DecidableEq α] (d1 d2 : List (α × β)) (k : α)
    (h : k ∉ keysD d2) : lookupD (updateD d1 d2) k = lookupD d1 k := by
  induction d2 generalizing d1 with
  | nil => rfl
  | cons e rest ih =>
    obtain ⟨k2, v2⟩ := e
    simp only [keysD, List.map_cons, List.mem_cons, not_or] at h
    have hstep : updateD d1 ((k2, v2) :: rest) = updateD (insertD d1 k2 v2) rest := rfl
    rw [hstep, ih (insertD d1 k2 v2) (by simpa [keysD] using h.2)]
    exact lookupD_insertD_ne d1 k2 k v2 h.1

theorem lookupD_updateD_mem {α β : Type} [DecidableEq α] (d1 d2 : List (α × β)) (k : α)
    (hnd : (keysD d2).Nodup) (h : k ∈ keysD d2) :
    lookupD (updateD d1 d2) k = lookupD d2 k := by
  induction d2 generalizing d1 with
  | nil => simp [keysD] at h
  | cons e rest ih =>
    obtain ⟨k2, v2⟩ := e
    simp only [keysD, List.map_cons, List.nodup_cons] at hnd
    have hstep : updateD d1 ((k2, v2) :: rest) = updateD (insertD d1 k2 v2) rest := rfl
    by_cases hk : k = k2
    · subst hk
      have hnr : k ∉ keysD rest := by simpa [keysD] using hnd.1
      rw [hstep, lookupD_updateD_not_mem (insertD d1 k v2) rest k hnr,
        lookupD_insertD_self]
      simp [lookupD]
    · have hr : k ∈ keysD rest := by
        have hcons : keysD ((k2, v2) :: rest) = k2 :: keysD rest := rfl
        rw [hcons] at h
        rcases List.mem_cons.1 h with h2 | h2
        · exact absurd h2 hk
        · exact h2
      rw [hstep, ih (insertD d1 k2 v2) hnd.2 hr]
      simp [lookupD, Ne.symm hk]

/-! ### Lemmas about the abstract spring layout -/

theorem keysD_springLayout (solver : Graph → ℚ → Node → Point) (g : Graph) (scale : ℚ) :
    keysD (springLayout solver g scale) = g.nodes := by
  simp [keysD, springLayout, List.map_map]
  exact List.map_id g.nodes

theorem keysD_springLayoutW (solverM : WGraph → ℚ → Comm → Point) (h : WGraph) (scale : ℚ) :
    keysD (springLayoutW solverM h scale) = h.nodes := by
  simp [keysD, springLayoutW, List.map_map]
  exact List.map_id h.nodes

theorem lookupD_map_pair {α β : Type} [DecidableEq α] (f : α → β) (l : List α) (k : α) :
    lookupD (l.map (fun a => (a, f a))) k = if k ∈ l then some (f k) else none := by
  induction l with
  | nil => simp [lookupD]
  | cons a rest ih =>
    by_cases h : a = k
    · subst h
      simp [lookupD]
    · simp [lookupD, h, ih, Ne.symm h]

theorem lookupD_springLayout_mem (solver : Graph → ℚ → Node → Point) (g : Graph) (scale : ℚ)
    (n : Node) (h : n ∈ g.nodes) :
    lookupD (springLayout solver g scale) n = some (solver g scale n) := by
  rw [springLayout, lookupD_map_pair (solver g scale) g.nodes n, if_pos h]

theorem lookupD_springLayout_not_mem (solver : Graph → ℚ → Node → Point) (g : Graph)
    (scale : ℚ) (n : Node) (h : n ∉ g.nodes) :
    lookupD (springLayout solver g scale) n = none := by
  rw [springLayout, lookupD_map_pair (solver g scale) g.nodes n, if_neg h]

theorem lookupD_springLayoutW_mem (solverM : WGraph → ℚ → Comm → Point) (hg : WGraph)
    (scale : ℚ) (c : Comm) (h : c ∈ hg.nodes) :
    lookupD (springLayoutW solverM hg scale) c = some (solverM hg scale c) := by
  rw [springLayoutW, lookupD_map_pair (solverM hg scale) hg.nodes c, if_pos h]

/-! ### Subgraph and community-membership lemmas -/

theorem mem_subgraph_nodes (g : Graph) (ns : List Node) (n : Node) :
    n ∈ (g.subgraph ns).nodes ↔ n ∈ g.nodes ∧ n ∈ ns := by
  simp [Graph.subgraph, List.mem_filter]

theorem subgraph_nodes_nodup (g : Graph) (ns : List Node) (h : g.nodes.Nodup) :
    (g.subgraph ns).nodes.Nodup :=
  List.Nodup.filter _ h

theorem mem_members (p : List (Node × Comm)) (c : Comm) (n : Node) :
    n ∈ members p c ↔ (n, c) ∈ p := by
  simp only [members, List.mem_map, List.mem_filter, decide_eq_true_eq]
  constructor
  · rintro ⟨⟨n1, c1⟩, ⟨hmem, hc⟩, hn⟩
    simp at hc hn
    subst hc
    subst hn
    exact hmem
  · intro h
    exact ⟨(n, c), ⟨h, by simp⟩, rfl⟩

theorem lookupD_of_mem_members (p : List (Node × Comm)) (c : Comm) (n : Node)
    (hnd : (keysD p).Nodup) (h : n ∈ members p c) : lookupD p n = some c :=
  lookupD_eq_some_of_mem_nodup p n c hnd ((mem_members p c n).1 h)

theorem mem_members_of_lookupD (p : List (Node × Comm)) (c : Comm) (n : Node)
    (h : lookupD p n = some c) : n ∈ members p c :=
  (mem_members p c n).2 (mem_of_lookupD_eq_some p n c h)

/-! ### Lemmas about the anchor-assignment loop of `_position_communities` -/

theorem assignAnchors_isSome (pc : List (Comm × Point)) :
    ∀ (p : List (Node × Comm)) (pos0 : List (Node × Point)),
    (∀ x ∈ p, (lookupD pc x.2).isSome) →
    ∃ pos, assignAnchors pc p pos0 = some pos := by
  intro p
  induction p with
  | nil =>
    intro pos0 _
    exact ⟨pos0, rfl⟩
  | cons e rest ih =>
    intro pos0 hsome
    obtain ⟨n, c⟩ := e
    obtain ⟨pt, hpt⟩ :=
      Option.isSome_iff_exists.1 (hsome (n, c) (List.mem_cons_self _ _))
    obtain ⟨pos, hpos⟩ :=
      ih (insertD pos0 n pt) (fun x hx => hsome x (List.mem_cons_of_mem _ hx))
    refine ⟨pos, ?_⟩
    simp only [assignAnchors, hpt]
    exact hpos

theorem assignAnchors_frame (pc : List (Comm × Point)) :
    ∀ (p : List (Node × Comm)) (pos0 pos : List (Node × Point)) (k : Node),
    assignAnchors pc p pos0 = some pos → k ∉ keysD p →
    lookupD pos k = lookupD pos0 k := by
  intro p
  induction p with
  | nil =>
    intro pos0 pos k h _
    injection h with h
    rw [h]
  | cons e rest ih =>
    intro pos0 pos k h hk
    obtain ⟨n, c⟩ := e
    simp only [keysD, List.map_cons, List.mem_cons, not_or] at hk
    rcases hpt : lookupD pc c with _ | pt
    · simp [assignAnchors, hpt] at h
    · simp only [assignAnchors, hpt] at h
      rw [ih (insertD pos0 n pt) pos k h (by simpa [keysD] using hk.2)]
      exact lookupD_insertD_ne pos0 n k pt hk.1

theorem assignAnchors_isSome_mono (pc : List (Comm × Point)) :
    ∀ (p : List (Node × Comm)) (pos0 pos : List (Node × Point)) (k : Node),
    assignAnchors pc p pos0 = some pos → (lookupD pos0 k).isSome →
    (lookupD pos k).isSome := by
  intro p
  induction p with
  | nil =>
    intro pos0 pos k h hk
    injection h with h
    rw [← h]
    exact hk
  | cons e rest ih =>
    intro pos0 pos k h hk
    obtain ⟨n, c⟩ := e
    rcases hpt : lookupD pc c with _ | pt
    · simp [assignAnchors, hpt] at h
    · simp only [assignAnchors, hpt] at h
      exact ih (insertD pos0 n pt) pos k h (lookupD_insertD_isSome pos0 n k pt hk)

theorem assignAnchors_lookup_isSome (pc : List (Comm × Point)) :
    ∀ (p : List (Node × Comm)) (pos0 pos : List (Node × Point)) (n : Node),
    assignAnchors pc p pos0 = some pos → n ∈ keysD p →
    (lookupD pos n).isSome := by
  intro p
  induction p with
  | nil =>
    intro pos0 pos n _ hn
    simp [keysD] at hn
  | cons e rest ih =>
    intro pos0 pos n h hn
    obtain ⟨n1, c1⟩ := e
    rcases hpt : lookupD pc c1 with _ | pt
    · simp [assignAnchors, hpt] at h
    · simp only [assignAnchors, hpt] at h
      by_cases hne : n ∈ keysD rest
      · exact ih (insertD pos0 n1 pt) pos n h hne
      · have hn1 : n = n1 := by
          have hcons : keysD ((n1, c1) :: rest) = n1 :: keysD rest := rfl
          rw [hcons] at hn
          rcases List.mem_cons.1 hn with h1 | h1
          · exact h1
          · exact absurd h1 hne
        subst hn1
        exact assignAnchors_isSome_mono pc rest (insertD pos0 n pt) pos n h
          (by rw [lookupD_insertD_self]; rfl)

theorem assignAnchors_lookup_nodup (pc : List (Comm × Point)) :
    ∀ (p : List (Node × Comm)) (pos0 pos : List (Node × Point)) (n : Node) (c : Comm),
    (keysD p).Nodup → (n, c) ∈ p → assignAnchors pc p pos0 = some pos →
    lookupD pos n = lookupD pc c := by
  intro p
  induction p with
  | nil =>
    intro pos0 pos n c _ hmem
    simp at hmem
  | cons e rest ih =>
    intro pos0 pos n c hnd hmem h
    obtain ⟨n1, c1⟩ := e
    simp only [keysD, List.map_cons, List.nodup_cons] at hnd
    rcases hpt : lookupD pc c1 with _ | pt
    · simp [assignAnchors, hpt] at h
    · simp only [assignAnchors, hpt] at h
      rcases List.mem_cons.1 hmem with h1 | h1
      · injection h1 with hn1 hc1
        subst hn1
        subst hc1
        have hnr : n ∉ keysD rest := by simpa [keysD] using hnd.1
        rw [assignAnchors_frame pc rest (insertD pos0 n pt) pos n h hnr,
          lookupD_insertD_self, hpt]
      · exact ih (insertD pos0 n1 pt) pos n c hnd.2 h1 h

/-! ### Lemmas about the final composition loop of `community_layout` -/

theorem combinePos_spec (posC posN : List (Node × Point)) :
    ∀ (ns : List Node) (pos0 : List (Node × Point)),
    ns.Nodup → (∀ n ∈ ns, n ∉ keysD pos0) →
    (∀ n ∈ ns, (lookupD posC n).isSome ∧ (lookupD posN n).isSome) →
    ∃ pos, combinePos posC posN ns pos0 = some pos ∧
      keysD pos = keysD pos0 ++ ns ∧
      (∀ n a o, n ∈ ns → lookupD posC n = some a → lookupD posN n = some o →
        lookupD pos n = some (a + o)) ∧
      (∀ k, k ∉ ns → lookupD pos k = lookupD pos0 k) := by
  intro ns
  induction ns with
  | nil =>
    intro pos0 _ _ _
    exact ⟨pos0, rfl, by simp, by simp, fun k _ => rfl⟩
  | cons n rest ih =>
    intro pos0 hnd hfresh hsome
    obtain ⟨a, ha⟩ := Option.isSome_iff_exists.1 (hsome n (List.mem_cons_self n rest)).1
    obtain ⟨o, ho⟩ := Option.isSome_iff_exists.1 (hsome n (List.mem_cons_self n rest)).2
    have hn0 : n ∉ keysD pos0 := hfresh n (List.mem_cons_self n rest)
    have hnr : n ∉ rest := (List.nodup_cons.1 hnd).1
    have hfresh2 : ∀ m ∈ rest, m ∉ keysD (insertD pos0 n (a + o)) := by
      intro m hm
      rw [keysD_insertD_not_mem pos0 n (a + o) hn0]
      simp only [List.mem_append, List.mem_singleton, not_or]
      exact ⟨hfresh m (List.mem_cons_of_mem n hm), fun hh => hnr (hh ▸ hm)⟩
    obtain ⟨pos, hpos, hkeys, hval, hframe⟩ :=
      ih (insertD pos0 n (a + o)) (List.nodup_cons.1 hnd).2 hfresh2
        (fun m hm => hsome m (List.mem_cons_of_mem n hm))
    refine ⟨pos, ?_, ?_, ?_, ?_⟩
    · have hstep : combinePos posC posN (n :: rest) pos0 =
          combinePos posC posN rest (insertD pos0 n (a + o)) := by
        simp [combinePos, ha, ho]
      rw [hstep, hpos]
    · rw [hkeys, keysD_insertD_not_mem pos0 n (a + o) hn0]
      simp
    · intro m am om hm ham hom
      rcases List.mem_cons.1 hm with hm1 | hm1
      · subst hm1
        rw [ha] at ham
        rw [ho] at hom
        rw [hframe m hnr, lookupD_insertD_self]
        injection ham with ham
        injection hom with hom
        rw [ham, hom]
      · exact hval m am om hm1 ham hom
    · intro k hk
      simp only [List.mem_cons, not_or] at hk
      rw [hframe k hk.2, lookupD_insertD_ne pos0 n k (a + o) hk.1]

theorem combinePos_none (posC posN : List (Node × Point)) :
    ∀ (ns : List Node) (pos0 : List (Node × Point)) (n : Node),
    n ∈ ns → lookupD posC n = none →
    combinePos posC posN ns pos0 = none := by
  intro ns
  induction ns with
  | nil =>
    intro pos0 n h
    simp at h
  | cons m rest ih =>
    intro pos0 n hmem hnone
    rcases hC : lookupD posC m with _ | a
    · simp [combinePos, hC]
    · rcases hN : lookupD posN m with _ | o
      · simp [combinePos, hC, hN]
      · have hne : n ≠ m := by
          intro hh
          subst hh
          rw [hC] at hnone
          exact Option.noConfusion hnone
        have hr : n ∈ rest := by
          rcases List.mem_cons.1 hmem with h1 | h1
          · exact absurd h1 hne
          · exact h1
        have hstep : combinePos posC posN (m :: rest) pos0 =
            combinePos posC posN rest (insertD pos0 m (a + o)) := by
          simp [combinePos, hC, hN]
        rw [hstep]
        exact ih (insertD pos0 m (a + o)) n hr hnone

/-! ### Lemmas about `_find_between_community_edges` -/

theorem crossList_nil (p : List (Node × Comm)) (ci cj : Comm) :
    crossList p [] ci cj = [] := rfl

theorem findBCEgo_isSome (p : List (Node × Comm)) :
    ∀ (es : List (Node × Node)) (acc : List ((Comm × Comm) × List (Node × Node))),
    (∀ e ∈ es, (lookupD p e.1).isSome ∧ (lookupD p e.2).isSome) →
    ∃ m, findBCEgo p es acc = some m := by
  intro es
  induction es with
  | nil =>
    intro acc _
    exact ⟨acc, rfl⟩
  | cons e rest ih =>
    intro acc hsome
    obtain ⟨ci, hci⟩ :=
      Option.isSome_iff_exists.1 (hsome e (List.mem_cons_self _ _)).1
    obtain ⟨cj, hcj⟩ :=
      Option.isSome_iff_exists.1 (hsome e (List.mem_cons_self _ _)).2
    have hrest : ∀ e2 ∈ rest, (lookupD p e2.1).isSome ∧ (lookupD p e2.2).isSome :=
      fun e2 he2 => hsome e2 (List.mem_cons_of_mem _ he2)
    by_cases hcc : ci = cj
    · obtain ⟨m, hm⟩ := ih acc hrest
      exact ⟨m, by simp only [findBCEgo, hci, hcj, if_pos hcc]; exact hm⟩
    · rcases hacc : lookupD acc (ci, cj) with _ | l
      · obtain ⟨m, hm⟩ := ih (insertD acc (ci, cj) [e]) hrest
        exact ⟨m, by simp only [findBCEgo, hci, hcj, if_neg hcc, hacc]; exact hm⟩
      · obtain ⟨m, hm⟩ := ih (insertD acc (ci, cj) (l ++ [e])) hrest
        exact ⟨m, by simp only [findBCEgo, hci, hcj, if_neg hcc, hacc]; exact hm⟩

theorem findBCEgo_lookup (p : List (Node × Comm)) :
    ∀ (es : List (Node × Node)) (acc m : List ((Comm × Comm) × List (Node × Node))),
    findBCEgo p es acc = some m → ∀ ci cj,
    lookupD m (ci, cj) =
      mergeBCE (lookupD acc (ci, cj)) (if ci = cj then [] else crossList p es ci cj) := by
  intro es
  induction es with
  | nil =>
    intro acc m h ci cj
    injection h with h
    subst h
    rcases hacc : lookupD acc (ci, cj) with _ | l0 <;>
      simp [mergeBCE, crossList, hacc]
  | cons e rest ih =>
    intro acc m h ci cj
    rcases hci : lookupD p e.1 with _ | ci2
    · rw [show findBCEgo p (e :: rest) acc =
        (match lookupD p e.1, lookupD p e.2 with
         | some ci, some cj =>
           if ci = cj then findBCEgo p rest acc
           else
             match lookupD acc (ci, cj) with
             | some l => findBCEgo p rest (insertD acc (ci, cj) (l ++ [e]))
             | none => findBCEgo p rest (insertD acc (ci, cj) [e])
         | _, _ => none) from rfl, hci] at h
      exact Option.noConfusion h
    · rcases hcj : lookupD p e.2 with _ | cj2
      · rw [show findBCEgo p (e :: rest) acc =
          (match lookupD p e.1, lookupD p e.2 with
           | some ci, some cj =>
             if ci = cj then findBCEgo p rest acc
             else
               match lookupD acc (ci, cj) with
               | some l => findBCEgo p rest (insertD acc (ci, cj) (l ++ [e]))
               | none => findBCEgo p rest (insertD acc (ci, cj) [e])
           | _, _ => none) from rfl, hci, hcj] at h
        exact Option.noConfusion h
      · by_cases hcc : ci2 = cj2
        · simp only [findBCEgo, hci, hcj, if_pos hcc] at h
          rw [ih acc m h ci cj]
          by_cases hij : ci = cj
          · rw [if_pos hij, if_pos hij]
          · rw [if_neg hij, if_neg hij]
            have hhead : crossList p (e :: rest) ci cj = crossList p rest ci cj := by
              simp only [crossList, List.filter_cons]
              have : ¬(lookupD p e.1 = some ci ∧ lookupD p e.2 = some cj) := by
                rintro ⟨h1, h2⟩
                rw [hci] at h1
                rw [hcj] at h2
                injection h1 with h1
                injection h2 with h2
                exact hij (h1 ▸ h2 ▸ hcc)
              simp [this]
            rw [hhead]
        · by_cases hpair : (ci, cj) = (ci2, cj2)
          · injection hpair with hpi hpj
            subst hpi
            subst hpj
            have hij : ¬ ci = cj := hcc
            have hhead : crossList p (e :: rest) ci cj = e :: crossList p rest ci cj := by
              simp only [crossList, List.filter_cons]
              have : (lookupD p e.1 = some ci ∧ lookupD p e.2 = some cj) := ⟨hci, hcj⟩
              simp [this]
            rcases hacc : lookupD acc (ci, cj) with _ | l
            · simp only [findBCEgo, hci, hcj, if_neg hcc, hacc] at h
              rw [ih _ m h ci cj, lookupD_insertD_self]
              simp [mergeBCE, hacc, hij, hhead]
            · simp only [findBCEgo, hci, hcj, if_neg hcc, hacc] at h
              rw [ih _ m h ci cj, lookupD_insertD_self]
              simp [mergeBCE, hacc, hij, hhead, List.append_assoc]
          · have hhead : ∀ x y : Comm, crossList p (e :: rest) x y = crossList p rest x y ∨
                ((x, y) = (ci2, cj2) ∧
                  crossList p (e :: rest) x y = e :: crossList p rest x y) := by
              intro x y
              by_cases hxy : lookupD p e.1 = some x ∧ lookupD p e.2 = some y
              · refine Or.inr ⟨?_, ?_⟩
                · rw [hci] at hxy
                  rw [hcj] at hxy
                  obtain ⟨h1, h2⟩ := hxy
                  injection h1 with h1
                  injection h2 with h2
                  rw [← h1, ← h2]
                · simp only [crossList, List.filter_cons]
                  simp [hxy]
              · refine Or.inl ?_
                simp only [crossList, List.filter_cons]
                simp [hxy]
            have hhd : crossList p (e :: rest) ci cj = crossList p rest ci cj := by
              rcases hhead ci cj with h1 | h1
              · exact h1
              · exact absurd h1.1 hpair
            rcases hacc : lookupD acc (ci2, cj2) with _ | l
            · simp only [findBCEgo, hci, hcj, if_neg hcc, hacc] at h
              rw [ih _ m h ci cj, lookupD_insertD_ne acc (ci2, cj2) (ci, cj) [e] hpair, hhd]
            · simp only [findBCEgo, hci, hcj, if_neg hcc, hacc] at h
              rw [ih _ m h ci cj,
                lookupD_insertD_ne acc (ci2, cj2) (ci, cj) (l ++ [e]) hpair, hhd]

theorem find_bce_lookup (g : Graph) (p : List (Node × Comm))
    (m : List ((Comm × Comm) × List (Node × Node)))
    (h : _find_between_community_edges g p = some m) (ci cj : Comm) :
    lookupD m (ci, cj) =
      if ci = cj then none
      else if crossEdges g p ci cj = [] then none else some (crossEdges g p ci cj) := by
  have hx := findBCEgo_lookup p g.edges [] m h ci cj
  rw [hx]
  by_cases hij : ci = cj
  · simp [mergeBCE, lookupD, hij]
  · simp only [if_neg hij]
    have : crossEdges g p ci cj = crossList p g.edges ci cj := rfl
    rw [this]
    simp [mergeBCE, lookupD]

/-! ### Lemmas about community grouping and `_position_nodes` -/

theorem members_cons (n : Node) (c1 : Comm) (rest : List (Node × Comm)) (c : Comm) :
    members ((n, c1) :: rest) c =
      if c1 = c then n :: members rest c else members rest c := by
  by_cases h : c1 = c <;> simp [members, List.filter_cons, h]

theorem keysD_append {α β : Type} (d1 d2 : List (α × β)) :
    keysD (d1 ++ d2) = keysD d1 ++ keysD d2 :=
  List.map_append Prod.fst d1 d2

theorem lookupD_groupGo :
    ∀ (p : List (Node × Comm)) (acc : List (Comm × List Node)) (c : Comm),
    lookupD (groupGo p acc) c =
      match lookupD acc c with
      | some l => some (l ++ members p c)
      | none => if members p c = [] then none else some (members p c) := by
  intro p
  induction p with
  | nil =>
    intro acc c
    rcases hacc : lookupD acc c with _ | l <;> simp [groupGo, hacc, members]
  | cons e rest ih =>
    intro acc c
    obtain ⟨n, c1⟩ := e
    rcases hacc1 : lookupD acc c1 with _ | l
    · have hstep : groupGo ((n, c1) :: rest) acc = groupGo rest (insertD acc c1 [n]) := by
        simp [groupGo, hacc1]
      rw [hstep, ih (insertD acc c1 [n]) c]
      by_cases hc : c1 = c
      · subst hc
        rw [lookupD_insertD_self, hacc1, members_cons, if_pos rfl]
        simp
      · rw [lookupD_insertD_ne acc c1 c [n] (Ne.symm hc), members_cons, if_neg hc]
    · have hstep : groupGo ((n, c1) :: rest) acc =
          groupGo rest (insertD acc c1 (l ++ [n])) := by
        simp [groupGo, hacc1]
      rw [hstep, ih (insertD acc c1 (l ++ [n])) c]
      by_cases hc : c1 = c
      · subst hc
        rw [lookupD_insertD_self, hacc1, members_cons, if_pos rfl]
        simp
      · rw [lookupD_insertD_ne acc c1 c (l ++ [n]) (Ne.symm hc), members_cons, if_neg hc]

theorem lookupD_groupByCommunity (p : List (Node × Comm)) (c : Comm) :
    lookupD (groupByCommunity p) c =
      if members p c = [] then none else some (members p c) := by
  rw [groupByCommunity, lookupD_groupGo p [] c]
  rfl

theorem groupGo_keys_nodup :
    ∀ (p : List (Node × Comm)) (acc : List (Comm × List Node)),
    (keysD acc).Nodup → (keysD (groupGo p acc)).Nodup := by
  intro p
  induction p with
  | nil =>
    intro acc h
    exact h
  | cons e rest ih =>
    intro acc h
    obtain ⟨n, c1⟩ := e
    rcases hacc1 : lookupD acc c1 with _ | l
    · have hstep : groupGo ((n, c1) :: rest) acc = groupGo rest (insertD acc c1 [n]) := by
        simp [groupGo, hacc1]
      rw [hstep]
      exact ih _ (keysD_insertD_nodup acc c1 [n] h)
    · have hstep : groupGo ((n, c1) :: rest) acc =
          groupGo rest (insertD acc c1 (l ++ [n])) := by
        simp [groupGo, hacc1]
      rw [hstep]
      exact ih _ (keysD_insertD_nodup acc c1 (l ++ [n]) h)

theorem groupByCommunity_keys_nodup (p : List (Node × Comm)) :
    (keysD (groupByCommunity p)).Nodup :=
  groupGo_keys_nodup p [] List.nodup_nil

theorem groupByCommunity_entry (p : List (Node × Comm)) (e : Comm × List Node)
    (h : e ∈ groupByCommunity p) : e.2 = members p e.1 ∧ e.2 ≠ [] := by
  have hl : lookupD (groupByCommunity p) e.1 = some e.2 :=
    lookupD_eq_some_of_mem_nodup _ e.1 e.2 (groupByCommunity_keys_nodup p)
      (by rcases e with ⟨c, l⟩; exact h)
  rw [lookupD_groupByCommunity p e.1] at hl
  by_cases hm : members p e.1 = []
  · rw [if_pos hm] at hl
    exact Option.noConfusion hl
  · rw [if_neg hm] at hl
    injection hl with hl
    exact ⟨hl.symm, hl.symm ▸ hm⟩

theorem foldPN_not_mem (solver : Graph → ℚ → Node → Point) (g : Graph) (scale : ℚ) :
    ∀ (es : List (Comm × List Node)) (pos0 : List (Node × Point)) (n : Node),
    (∀ e ∈ es, n ∉ (g.subgraph e.2).nodes) →
    lookupD (es.foldl
      (fun pos e => updateD pos (springLayout solver (g.subgraph e.2) scale)) pos0) n =
      lookupD pos0 n := by
  intro es
  induction es with
  | nil =>
    intro pos0 n _
    rfl
  | cons e rest ih =>
    intro pos0 n h
    have hstep : (e :: rest).foldl
        (fun pos e => updateD pos (springLayout solver (g.subgraph e.2) scale)) pos0 =
        rest.foldl (fun pos e => updateD pos (springLayout solver (g.subgraph e.2) scale))
          (updateD pos0 (springLayout solver (g.subgraph e.2) scale)) := rfl
    rw [hstep, ih _ n (fun e2 he2 => h e2 (List.mem_cons_of_mem _ he2))]
    apply lookupD_updateD_not_mem
    rw [keysD_springLayout]
    exact h e (List.mem_cons_self _ _)

theorem lookup_position_nodes (solver : Graph → ℚ → Node → Point) (g : Graph)
    (p : List (Node × Comm)) (scale : ℚ) (n : Node) (c : Comm)
    (hg : g.nodes.Nodup) (hpk : (keysD p).Nodup) (hc : lookupD p n = some c) :
    lookupD (_position_nodes solver g p scale) n =
      lookupD (springLayout solver (g.subgraph (members p c)) scale) n := by
  have hmem : n ∈ members p c := mem_members_of_lookupD p c n hc
  have hne : members p c ≠ [] := List.ne_nil_of_mem hmem
  have hlg : lookupD (groupByCommunity p) c = some (members p c) := by
    rw [lookupD_groupByCommunity p c, if_neg hne]
  have hcm : (c, members p c) ∈ groupByCommunity p :=
    mem_of_lookupD_eq_some _ c (members p c) hlg
  obtain ⟨es1, es2, hsplit⟩ := List.append_of_mem hcm
  have hnd : (keysD (groupByCommunity p)).Nodup := groupByCommunity_keys_nodup p
  rw [hsplit] at hnd
  rw [keysD_append] at hnd
  have hkc : keysD ((c, members p c) :: es2) = c :: keysD es2 := rfl
  rw [hkc] at hnd
  have hc1 : c ∉ keysD es1 := by
    intro hin
    exact (List.disjoint_of_nodup_append hnd) hin (List.mem_cons_self _ _)
  have hnd2 := (List.nodup_append.1 hnd).2.1
  have hc2 : c ∉ keysD es2 := (List.nodup_cons.1 hnd2).1
  have hother : ∀ e : Comm × List Node, e ∈ groupByCommunity p → e.1 ≠ c →
      n ∉ (g.subgraph e.2).nodes := by
    intro e hegrp hene hinn
    have he2 := (groupByCommunity_entry p e hegrp).1
    rw [mem_subgraph_nodes] at hinn
    have : n ∈ members p e.1 := he2 ▸ hinn.2
    have := lookupD_of_mem_members p e.1 n hpk this
    rw [hc] at this
    injection this with this
    exact hene this.symm
  have hes1 : ∀ e ∈ es1, n ∉ (g.subgraph e.2).nodes := by
    intro e he
    refine hother e (hsplit ▸ List.mem_append_left _ he) ?_
    intro heq
    exact hc1 (heq ▸ (by simpa [keysD] using List.mem_map_of_mem Prod.fst he))
  have hes2 : ∀ e ∈ es2, n ∉ (g.subgraph e.2).nodes := by
    intro e he
    refine hother e (hsplit ▸ List.mem_append_right _ (List.mem_cons_of_mem _ he)) ?_
    intro heq
    exact hc2 (heq ▸ (by simpa [keysD] using List.mem_map_of_mem Prod.fst he))
  rw [_position_nodes, hsplit, List.foldl_append]
  have hpos1 : lookupD (es1.foldl
      (fun pos e => updateD pos (springLayout solver (g.subgraph e.2) scale)) []) n =
      none :=
    foldPN_not_mem solver g scale es1 [] n hes1
  have hstep : ((c, members p c) :: es2).foldl
      (fun pos e => updateD pos (springLayout solver (g.subgraph e.2) scale))
      (es1.foldl (fun pos e => updateD pos (springLayout solver (g.subgraph e.2) scale)) []) =
      es2.foldl (fun pos e => updateD pos (springLayout solver (g.subgraph e.2) scale))
        (updateD (es1.foldl
          (fun pos e => updateD pos (springLayout solver (g.subgraph e.2) scale)) [])
          (springLayout solver (g.subgraph (members p c)) scale)) := rfl
  rw [hstep, foldPN_not_mem solver g scale es2 _ n hes2]
  by_cases hk : n ∈ keysD (springLayout solver (g.subgraph (members p c)) scale)
  · apply lookupD_updateD_mem
    · rw [keysD_springLayout]
      exact subgraph_nodes_nodup g (members p c) hg
    · exact hk
  · rw [lookupD_updateD_not_mem _ _ n hk, hpos1,
      lookupD_eq_none_of_not_mem_keysD _ n hk]

/-! ### Bridge lemmas for `_position_communities` and `community_layout` -/

theorem mem_communitiesOf (p : List (Node × Comm)) (x : Node × Comm) (h : x ∈ p) :
    x.2 ∈ communitiesOf p := by
  simp only [communitiesOf, List.mem_dedup]
  exact List.mem_map_of_mem Prod.snd h

theorem metaGraph_isSome (g : Graph) (p : List (Node × Comm))
    (hedge : ∀ e ∈ g.edges, (lookupD p e.1).isSome ∧ (lookupD p e.2).isSome) :
    ∃ hyper, metaGraph g p = some hyper ∧ hyper.nodes = communitiesOf p := by
  obtain ⟨m, hm⟩ := findBCEgo_isSome p g.edges [] hedge
  exact ⟨⟨communitiesOf p, m.map (fun e => (e.1, e.2.length))⟩,
    by simp [metaGraph, _find_between_community_edges, hm], rfl⟩

theorem position_communities_inv (solverM : WGraph → ℚ → Comm → Point) (g : Graph)
    (p : List (Node × Comm)) (scale : ℚ) (posC : List (Node × Point))
    (h : _position_communities solverM g p scale = some posC) :
    ∃ hyper, metaGraph g p = some hyper ∧ hyper.nodes = communitiesOf p ∧
      assignAnchors (springLayoutW solverM hyper scale) p [] = some posC := by
  rcases hmg : metaGraph g p with _ | hyper
  · rw [_position_communities, hmg] at h
    exact Option.noConfusion h
  · refine ⟨hyper, rfl, ?_, ?_⟩
    · rcases hbce : _find_between_community_edges g p with _ | bce
      · rw [metaGraph, hbce] at hmg
        exact Option.noConfusion hmg
      · rw [metaGraph, hbce] at hmg
        injection hmg with hmg
        rw [← hmg]
    · rw [_position_communities, hmg] at h
      exact h

theorem position_communities_isSome (solverM : WGraph → ℚ → Comm → Point) (g : Graph)
    (p : List (Node × Comm)) (scale : ℚ)
    (hedge : ∀ e ∈ g.edges, (lookupD p e.1).isSome ∧ (lookupD p e.2).isSome) :
    ∃ posC, _position_communities solverM g p scale = some posC := by
  obtain ⟨hyper, hmg, hnodes⟩ := metaGraph_isSome g p hedge
  have hanch : ∀ x ∈ p, (lookupD (springLayoutW solverM hyper scale) x.2).isSome := by
    intro x hx
    rw [lookupD_isSome_iff_mem_keysD, keysD_springLayoutW, hnodes]
    exact mem_communitiesOf p x hx
  obtain ⟨posC, hposC⟩ := assignAnchors_isSome (springLayoutW solverM hyper scale) p [] hanch
  exact ⟨posC, by rw [_position_communities, hmg]; exact hposC⟩

theorem position_communities_lookup_isSome (solverM : WGraph → ℚ → Comm → Point)
    (g : Graph) (p : List (Node × Comm)) (scale : ℚ) (posC : List (Node × Point))
    (n : Node) (h : _position_communities solverM g p scale = some posC)
    (hn : n ∈ keysD p) : (lookupD posC n).isSome := by
  obtain ⟨hyper, _, _, hassign⟩ := position_communities_inv solverM g p scale posC h
  exact assignAnchors_lookup_isSome _ p [] posC n hassign hn

theorem position_communities_lookup_none (solverM : WGraph → ℚ → Comm → Point)
    (g : Graph) (p : List (Node × Comm)) (scale : ℚ) (posC : List (Node × Point))
    (n : Node) (h : _position_communities solverM g p scale = some posC)
    (hn : n ∉ keysD p) : lookupD posC n = none := by
  obtain ⟨hyper, _, _, hassign⟩ := position_communities_inv solverM g p scale posC h
  rw [assignAnchors_frame _ p [] posC n hassign hn]
  rfl

theorem position_nodes_lookup_isSome (solver : Graph → ℚ → Node → Point) (g : Graph)
    (p : List (Node × Comm)) (scale : ℚ) (n : Node) (c : Comm)
    (hg : g.nodes.Nodup) (hpk : (keysD p).Nodup) (hn : n ∈ g.nodes)
    (hc : lookupD p n = some c) :
    (lookupD (_position_nodes solver g p scale) n).isSome := by
  rw [lookup_position_nodes solver g p scale n c hg hpk hc,
    lookupD_springLayout_mem solver (g.subgraph (members p c)) scale n
      ((mem_subgraph_nodes g (members p c) n).2 ⟨hn, mem_members_of_lookupD p c n hc⟩)]
  rfl

theorem combineStGo_spec (posC posN : List (Node × Point)) :
    ∀ (ns : List Node) (s : LayoutState) (pos : List (Node × Point)),
    combineStGo posC posN ns s pos = (s, combinePos posC posN ns pos) := by
  intro ns
  induction ns with
  | nil =>
    intro s pos
    rfl
  | cons n rest ih =>
    intro s pos
    rcases hC : lookupD posC n with _ | a
    · simp [combineStGo, combinePos, hC]
    · rcases hN : lookupD posN n with _ | o
      · simp [combineStGo, combinePos, hC, hN]
      · simp only [combineStGo, combinePos, hC, hN]
        exact ih s (insertD pos n (a + o))

/-- Full success package for `community_layout` under a total partition:
the anchor pass succeeds, the final dict exists, is keyed exactly by the
graph's node list, every node's entry is the sum of its anchor and offset,
and both the anchor and the offset of every node are defined. -/
theorem community_layout_total (solverM : WGraph → ℚ → Comm → Point)
    (solver : Graph → ℚ → Node → Point) (g : Graph) (p : List (Node × Comm))
    (hg : g.nodes.Nodup) (hpk : (keysD p).Nodup)
    (hwf : ∀ e ∈ g.edges, e.1 ∈ g.nodes ∧ e.2 ∈ g.nodes)
    (hcov : ∀ n ∈ g.nodes, (lookupD p n).isSome) :
    ∃ pos posC, _position_communities solverM g p 3 = some posC ∧
      community_layout solverM solver g p = some pos ∧
      keysD pos = g.nodes ∧
      (∀ n a o, n ∈ g.nodes → lookupD posC n = some a →
        lookupD (_position_nodes solver g p 1) n = some o →
        lookupD pos n = some (a + o)) ∧
      (∀ n ∈ g.nodes, (lookupD posC n).isSome ∧
        (lookupD (_position_nodes solver g p 1) n).isSome) := by
  have hedge : ∀ e ∈ g.edges, (lookupD p e.1).isSome ∧ (lookupD p e.2).isSome :=
    fun e he => ⟨hcov e.1 (hwf e he).1, hcov e.2 (hwf e he).2⟩
  obtain ⟨posC, hposC⟩ := position_communities_isSome solverM g p 3 hedge
  have hboth : ∀ n ∈ g.nodes, (lookupD posC n).isSome ∧
      (lookupD (_position_nodes solver g p 1) n).isSome := by
    intro n hn
    have hcsome := hcov n hn
    obtain ⟨c, hc⟩ := Option.isSome_iff_exists.1 hcsome
    constructor
    · exact position_communities_lookup_isSome solverM g p 3 posC n hposC
        ((lookupD_isSome_iff_mem_keysD p n).1 hcsome)
    · exact position_nodes_lookup_isSome solver g p 1 n c hg hpk hn hc
  obtain ⟨pos, hpos, hkeys, hval, _⟩ :=
    combinePos_spec posC (_position_nodes solver g p 1) g.nodes [] hg
      (fun n _ => by simp [keysD]) hboth
  refine ⟨pos, posC, hposC, ?_, ?_, ?_, hboth⟩
  · simp only [community_layout, hposC]
    exact hpos
  · rw [hkeys]
    rfl
  · intro n a o hn ha ho
    exact hval n a o hn ha ho

/-- C1: for every graph and every partition dict that assigns a community to
every node of the graph, `community_layout` succeeds and the returned mapping
has exactly one entry per graph node — its key sequence is exactly the node
list — and each entry is a defined coordinate pair.  Coordinates are rational
pairs in this embedding (the abstract solver contract), so no entry can be a
NaN or infinite value. -/
theorem C1_layout_covers_nodes (solverM : WGraph → ℚ → Comm → Point)
    (solver : Graph → ℚ → Node → Point) (g : Graph) (p : List (Node × Comm))
    (hg : g.nodes.Nodup) (hpk : (keysD p).Nodup)
    (hwf : ∀ e ∈ g.edges, e.1 ∈ g.nodes ∧ e.2 ∈ g.nodes)
    (hcov : ∀ n ∈ g.nodes, (lookupD p n).isSome) :
    ∃ pos, community_layout solverM solver g p = some pos ∧
      keysD pos = g.nodes ∧
      ∀ n ∈ g.nodes, ∃ pt : Point, lookupD pos n = some pt := by
  obtain ⟨pos, posC, _, hlay, hkeys, _, _⟩ :=
    community_layout_total solverM solver g p hg hpk hwf hcov
  refine ⟨pos, hlay, hkeys, ?_⟩
  intro n hn
  have hmemk : n ∈ keysD pos := by rw [hkeys]; exact hn
  obtain ⟨pt, hpt⟩ :=
    Option.isSome_iff_exists.1 ((lookupD_isSome_iff_mem_keysD pos n).2 hmemk)
  exact ⟨pt, hpt⟩

/-- Witness for C1: the four-node example graph with two communities and a
concrete deterministic solver. -/
theorem C1_witness :
    ∃ pos, community_layout exSolverW exSolver g34 p34 = some pos ∧
      keysD pos = g34.nodes ∧
      ∀ n ∈ g34.nodes, ∃ pt : Point, lookupD pos n = some pt :=
  C1_layout_covers_nodes exSolverW exSolver g34 p34
    (by decide) (by decide) (by decide) (by decide)

/-- C2: every node's final position is the component-wise sum of its
community anchor computed by `_position_communities` at scale `3` and its
local offset computed by `_position_nodes` at scale `1`, and the
inter-community scale `3` is strictly larger than the intra-community
scale `1`. -/
theorem C2_additive_composition (solverM : WGraph → ℚ → Comm → Point)
    (solver : Graph → ℚ → Node → Point) (g : Graph) (p : List (Node × Comm))
    (hg : g.nodes.Nodup) (hpk : (keysD p).Nodup)
    (hwf : ∀ e ∈ g.edges, e.1 ∈ g.nodes ∧ e.2 ∈ g.nodes)
    (hcov : ∀ n ∈ g.nodes, (lookupD p n).isSome) :
    (1 : ℚ) < 3 ∧
    ∃ pos posC, community_layout solverM solver g p = some pos ∧
      _position_communities solverM g p 3 = some posC ∧
      ∀ n ∈ g.nodes, ∃ a o, lookupD posC n = some a ∧
        lookupD (_position_nodes solver g p 1) n = some o ∧
        lookupD pos n = some (a + o) := by
  obtain ⟨pos, posC, hposC, hlay, _, hval, hboth⟩ :=
    community_layout_total solverM solver g p hg hpk hwf hcov
  refine ⟨by norm_num, pos, posC, hlay, hposC, ?_⟩
  intro n hn
  obtain ⟨a, ha⟩ := Option.isSome_iff_exists.1 (hboth n hn).1
  obtain ⟨o, ho⟩ := Option.isSome_iff_exists.1 (hboth n hn).2
  exact ⟨a, o, ha, ho, hval n a o hn ha ho⟩

/-- Witness for C2 at the example graph. -/
theorem C2_witness :
    (1 : ℚ) < 3 ∧
    ∃ pos posC, community_layout exSolverW exSolver g34 p34 = some pos ∧
      _position_communities exSolverW g34 p34 3 = some posC ∧
      ∀ n ∈ g34.nodes, ∃ a o, lookupD posC n = some a ∧
        lookupD (_position_nodes exSolver g34 p34 1) n = some o ∧
        lookupD pos n = some (a + o) :=
  C2_additive_composition exSolverW exSolver g34 p34
    (by decide) (by decide) (by decide) (by decide)

/-- C3: the crossing-edge map contains a key `(ci, cj)` exactly when `ci ≠ cj`
and some graph edge crosses from community `ci` to community `cj`; the value
at a key is exactly the list of those crossing edges (in edge order); and the
meta-graph's edge weights are the lengths of those lists.  The spec's example
instance is checked in the witness. -/
theorem C3_crossing_edges (g : Graph) (p : List (Node × Comm))
    (m : List ((Comm × Comm) × List (Node × Node)))
    (hm : _find_between_community_edges g p = some m) :
    (∀ ci cj, ((ci, cj) ∈ keysD m ↔
      ci ≠ cj ∧ ∃ e ∈ g.edges, lookupD p e.1 = some ci ∧ lookupD p e.2 = some cj)) ∧
    (∀ ci cj l, lookupD m (ci, cj) = some l → l = crossEdges g p ci cj) ∧
    (∀ hyper, metaGraph g p = some hyper →
      hyper.edges = m.map (fun e => (e.1, e.2.length))) := by
  refine ⟨?_, ?_, ?_⟩
  · intro ci cj
    rw [← lookupD_isSome_iff_mem_keysD, find_bce_lookup g p m hm ci cj]
    by_cases hij : ci = cj
    · simp [hij]
    · rw [if_neg hij]
      by_cases hemp : crossEdges g p ci cj = []
      · rw [if_pos hemp]
        simp only [crossEdges, List.filter_eq_nil_iff] at hemp
        simp only [Option.isSome_none, Bool.false_eq_true, false_iff, not_and]
        intro _
        rintro ⟨e, he, h1, h2⟩
        exact hemp e he (by simp [h1, h2])
      · rw [if_neg hemp]
        simp only [Option.isSome_some, true_iff]
        refine ⟨hij, ?_⟩
        obtain ⟨e, he⟩ := List.exists_mem_of_ne_nil _ hemp
        have := List.mem_filter.1 he
        refine ⟨e, this.1, ?_⟩
        simpa using this.2
  · intro ci cj l hl
    rw [find_bce_lookup g p m hm ci cj] at hl
    by_cases hij : ci = cj
    · rw [if_pos hij] at hl
      exact Option.noConfusion hl
    · rw [if_neg hij] at hl
      by_cases hemp : crossEdges g p ci cj = []
      · rw [if_pos hemp] at hl
        exact Option.noConfusion hl
      · rw [if_neg hemp] at hl
        injection hl with hl
        exact hl.symm
  · intro hyper hh
    simp only [metaGraph, hm] at hh
    injection hh with hh
    rw [← hh]

/-- Witness for C3: the spec's example — edges (1,2), (2,3), (3,4) with
communities {1, 2} ↦ 0 and {3, 4} ↦ 1 produce exactly one entry, for ordered
pair (0, 1), holding the single crossing edge (2, 3). -/
theorem C3_witness :
    _find_between_community_edges g34 p34 = some m34 ∧
    keysD m34 = [(0, 1)] ∧
    lookupD m34 (0, 1) = some [(2, 3)] ∧
    (∀ l, lookupD m34 (0, 1) = some l → l = crossEdges g34 p34 0 1) :=
  ⟨rfl, rfl, rfl, fun l hl => (C3_crossing_edges g34 p34 m34 rfl).2.1 0 1 l hl⟩

/-- C4: if any node of the graph is missing from the partition dict —
whether it lies on an edge or is isolated — `community_layout` raises a
`KeyError` (modelled as `none`) instead of returning a mapping that omits
the node. -/
theorem C4_missing_node_raises (solverM : WGraph → ℚ → Comm → Point)
    (solver : Graph → ℚ → Node → Point) (g : Graph) (p : List (Node × Comm))
    (n : Node) (hn : n ∈ g.nodes) (hmiss : lookupD p n = none) :
    community_layout solverM solver g p = none := by
  rcases hpc : _position_communities solverM g p 3 with _ | posC
  · simp [community_layout, hpc]
  · simp only [community_layout, hpc]
    apply combinePos_none posC (_position_nodes solver g p 1) g.nodes [] n hn
    refine position_communities_lookup_none solverM g p 3 posC n hpc ?_
    intro hk
    have := (lookupD_isSome_iff_mem_keysD p n).2 hk
    rw [hmiss] at this
    exact Bool.noConfusion this

/-- Witness for C4: a one-node graph with an empty partition raises. -/
theorem C4_witness : community_layout exSolverW exSolver gOne [] = none :=
  C4_missing_node_raises exSolverW exSolver gOne [] 0 (by decide) rfl

/-- C5: two nodes placed in the same community by the partition receive the
identical (defined) anchor coordinate from `_position_communities`; hence
when every node lives in one community all anchors coincide and the final
positions differ from the intra-community layout only by that common
constant. -/
theorem C5_shared_anchor (solverM : WGraph → ℚ → Comm → Point) (g : Graph)
    (p : List (Node × Comm)) (scale : ℚ) (posC : List (Node × Point))
    (u v : Node) (c : Comm) (hpk : (keysD p).Nodup)
    (hpos : _position_communities solverM g p scale = some posC)
    (hu : lookupD p u = some c) (hv : lookupD p v = some c) :
    lookupD posC u = lookupD posC v ∧ (lookupD posC u).isSome := by
  obtain ⟨hyper, _, hnodes, hassign⟩ :=
    position_communities_inv solverM g p scale posC hpos
  have hmu : (u, c) ∈ p := mem_of_lookupD_eq_some p u c hu
  have hmv : (v, c) ∈ p := mem_of_lookupD_eq_some p v c hv
  have h1 := assignAnchors_lookup_nodup (springLayoutW solverM hyper scale)
    p [] posC u c hpk hmu hassign
  have h2 := assignAnchors_lookup_nodup (springLayoutW solverM hyper scale)
    p [] posC v c hpk hmv hassign
  constructor
  · rw [h1, h2]
  · rw [h1, lookupD_springLayoutW_mem solverM hyper scale c
      (hnodes ▸ mem_communitiesOf p (u, c) hmu)]
    rfl

/-- Witness for C5: nodes 1 and 2 share community 0 of the example partition
and receive the same anchor. -/
theorem C5_witness :
    lookupD [((1 : Node), Point.mk 0 3), (2, Point.mk 0 3), (3, Point.mk 1 3),
        (4, Point.mk 1 3)] 1 =
      lookupD [((1 : Node), Point.mk 0 3), (2, Point.mk 0 3), (3, Point.mk 1 3),
        (4, Point.mk 1 3)] 2 ∧
    (lookupD [((1 : Node), Point.mk 0 3), (2, Point.mk 0 3), (3, Point.mk 1 3),
        (4, Point.mk 1 3)] 1).isSome :=
  C5_shared_anchor exSolverW g34 p34 3
    [(1, Point.mk 0 3), (2, Point.mk 0 3), (3, Point.mk 1 3), (4, Point.mk 1 3)]
    1 2 0 (by decide) (by decide) (by decide) (by decide)

/-- C6: the local offset of a node of community `c` depends only on the
induced subgraph on `c`'s member list (and the scale and the solver): two
runs on graphs and partitions that agree on `c`'s members and on the induced
subgraph give the node the same offset — communities do not couple. -/
theorem C6_community_locality (solver : Graph → ℚ → Node → Point) (scale : ℚ)
    (g1 g2 : Graph) (p1 p2 : List (Node × Comm)) (c : Comm) (n : Node)
    (hg1 : g1.nodes.Nodup) (hg2 : g2.nodes.Nodup)
    (hp1 : (keysD p1).Nodup) (hp2 : (keysD p2).Nodup)
    (hmem : n ∈ members p1 c)
    (hmembers : members p1 c = members p2 c)
    (hsub : g1.subgraph (members p1 c) = g2.subgraph (members p2 c)) :
    lookupD (_position_nodes solver g1 p1 scale) n =
      lookupD (_position_nodes solver g2 p2 scale) n := by
  have hc1 : lookupD p1 n = some c := lookupD_of_mem_members p1 c n hp1 hmem
  have hc2 : lookupD p2 n = some c :=
    lookupD_of_mem_members p2 c n hp2 (hmembers ▸ hmem)
  rw [lookup_position_nodes solver g1 p1 scale n c hg1 hp1 hc1,
    lookup_position_nodes solver g2 p2 scale n c hg2 hp2 hc2, hsub]

/-- Witness for C6: two different graphs and partitions agreeing on community
0 (members [1, 2], single edge (1,2)) give node 1 the same offset. -/
theorem C6_witness :
    lookupD (_position_nodes exSolver ⟨[1, 2, 3], [(1, 2), (2, 3)]⟩
      [(1, 0), (2, 0), (3, 1)] 1) 1 =
    lookupD (_position_nodes exSolver ⟨[1, 5, 2], [(1, 2), (5, 5)]⟩
      [(1, 0), (2, 0), (5, 7)] 1) 1 :=
  C6_community_locality exSolver 1 ⟨[1, 2, 3], [(1, 2), (2, 3)]⟩
    ⟨[1, 5, 2], [(1, 2), (5, 5)]⟩ [(1, 0), (2, 0), (3, 1)] [(1, 0), (2, 0), (5, 7)]
    0 1 (by decide) (by decide) (by decide) (by decide) (by decide) (by decide)
    (by decide)

/-- C7: with the solver's seed fixed (same solver behaviour), two runs of the
intra-community positioner and of `community_layout` on the same graph,
partition and scale return identical outputs — the computation is stateless
and depends on the solver only through its input-output behaviour. -/
theorem C7_seed_determinism (sm1 sm2 : WGraph → ℚ → Comm → Point)
    (sv1 sv2 : Graph → ℚ → Node → Point) (g : Graph) (p : List (Node × Comm))
    (scale : ℚ)
    (hm : ∀ h sc c, sm1 h sc c = sm2 h sc c)
    (hv : ∀ gg sc n, sv1 gg sc n = sv2 gg sc n) :
    _position_nodes sv1 g p scale = _position_nodes sv2 g p scale ∧
    community_layout sm1 sv1 g p = community_layout sm2 sv2 g p := by
  have hm2 : sm1 = sm2 := funext fun h => funext fun sc => funext fun c => hm h sc c
  have hv2 : sv1 = sv2 := funext fun gg => funext fun sc => funext fun n => hv gg sc n
  subst hm2
  subst hv2
  exact ⟨rfl, rfl⟩

/-- Witness for C7: two runs with the same concrete solver on the example
input agree. -/
theorem C7_witness :
    _position_nodes exSolver g34 p34 1 = _position_nodes exSolver g34 p34 1 ∧
    community_layout exSolverW exSolver g34 p34 =
      community_layout exSolverW exSolver g34 p34 :=
  C7_seed_determinism exSolverW exSolverW exSolver exSolver g34 p34 1
    (fun _ _ _ => rfl) (fun _ _ _ => rfl)

/-- C8: degenerate inputs (empty graph, single node, singleton community,
communities without internal or crossing edges) still succeed with defined
coordinates: every community — crossing edges or not — is a node of the
meta-graph (`add_nodes_from`) with a defined anchor, every graph node has a
defined offset, and `community_layout` returns an entry for every graph
node. -/
theorem C8_degenerate_defined (solverM : WGraph → ℚ → Comm → Point)
    (solver : Graph → ℚ → Node → Point) (g : Graph) (p : List (Node × Comm))
    (hg : g.nodes.Nodup) (hpk : (keysD p).Nodup)
    (hwf : ∀ e ∈ g.edges, e.1 ∈ g.nodes ∧ e.2 ∈ g.nodes)
    (hcov : ∀ n ∈ g.nodes, (lookupD p n).isSome) :
    ∃ hyper pos, metaGraph g p = some hyper ∧ hyper.nodes = communitiesOf p ∧
      (∀ c ∈ communitiesOf p, (lookupD (springLayoutW solverM hyper 3) c).isSome) ∧
      (∀ n ∈ g.nodes, (lookupD (_position_nodes solver g p 1) n).isSome) ∧
      community_layout solverM solver g p = some pos ∧ keysD pos = g.nodes := by
  have hedge : ∀ e ∈ g.edges, (lookupD p e.1).isSome ∧ (lookupD p e.2).isSome :=
    fun e he => ⟨hcov e.1 (hwf e he).1, hcov e.2 (hwf e he).2⟩
  obtain ⟨hyper, hmg, hnodes⟩ := metaGraph_isSome g p hedge
  obtain ⟨pos, posC, _, hlay, hkeys, _, hboth⟩ :=
    community_layout_total solverM solver g p hg hpk hwf hcov
  refine ⟨hyper, pos, hmg, hnodes, ?_, fun n hn => (hboth n hn).2, hlay, hkeys⟩
  intro c hc
  rw [lookupD_isSome_iff_mem_keysD, keysD_springLayoutW, hnodes]
  exact hc

/-- Witness for C8: one application at the single-node singleton-community
graph (no internal and no crossing edges) and one at the empty graph. -/
theorem C8_witness :
    (∃ hyper pos, metaGraph gOne pOne = some hyper ∧
      hyper.nodes = communitiesOf pOne ∧
      (∀ c ∈ communitiesOf pOne, (lookupD (springLayoutW exSolverW hyper 3) c).isSome) ∧
      (∀ n ∈ gOne.nodes, (lookupD (_position_nodes exSolver gOne pOne 1) n).isSome) ∧
      community_layout exSolverW exSolver gOne pOne = some pos ∧
      keysD pos = gOne.nodes) ∧
    (∃ hyper pos, metaGraph gEmpty [] = some hyper ∧
      hyper.nodes = communitiesOf [] ∧
      (∀ c ∈ communitiesOf [], (lookupD (springLayoutW exSolverW hyper 3) c).isSome) ∧
      (∀ n ∈ gEmpty.nodes, (lookupD (_position_nodes exSolver gEmpty [] 1) n).isSome) ∧
      community_layout exSolverW exSolver gEmpty [] = some pos ∧
      keysD pos = gEmpty.nodes) :=
  ⟨C8_degenerate_defined exSolverW exSolver gOne pOne
      (by decide) (by decide) (by decide) (by decide),
    C8_degenerate_defined exSolverW exSolver gEmpty []
      (by decide) (by decide) (by decide) (by decide)⟩

/-- C9: `community_layout` is pure with respect to its inputs: threading the
caller's graph and partition as explicit state through the computation
returns that state unchanged (the source only reads them), and the produced
mapping is recomputed fresh from the inputs on every call — the state-passing
run agrees with the pure function of the inputs. -/
theorem C9_pure_frame (solverM : WGraph → ℚ → Comm → Point)
    (solver : Graph → ℚ → Node → Point) (s : LayoutState) :
    (community_layoutSt solverM solver s).1 = s ∧
    (community_layoutSt solverM solver s).2 =
      community_layout solverM solver s.g s.partition := by
  rcases hpc : _position_communities solverM s.g s.partition 3 with _ | posC
  · simp [community_layoutSt, community_layout, hpc]
  · simp only [community_layoutSt, community_layout, hpc]
    rw [combineStGo_spec]
    exact ⟨rfl, rfl⟩

/-- C10: partition entries whose node is absent from the graph are silently
ignored: for any partition dict covering at least the graph's nodes, the
output keys are exactly the graph's node list and any key outside the graph —
including extra partition keys — is absent from the output. -/
theorem C10_extra_partition_keys_ignored (solverM : WGraph → ℚ → Comm → Point)
    (solver : Graph → ℚ → Node → Point) (g : Graph) (p : List (Node × Comm))
    (hg : g.nodes.Nodup) (hpk : (keysD p).Nodup)
    (hwf : ∀ e ∈ g.edges, e.1 ∈ g.nodes ∧ e.2 ∈ g.nodes)
    (hcov : ∀ n ∈ g.nodes, (lookupD p n).isSome) :
    ∃ pos, community_layout solverM solver g p = some pos ∧
      keysD pos = g.nodes ∧
      ∀ k, k ∉ g.nodes → lookupD pos k = none := by
  obtain ⟨pos, posC, _, hlay, hkeys, _, _⟩ :=
    community_layout_total solverM solver g p hg hpk hwf hcov
  refine ⟨pos, hlay, hkeys, ?_⟩
  intro k hk
  apply lookupD_eq_none_of_not_mem_keysD
  rw [hkeys]
  exact hk

/-- Witness for C10: the single-node graph with a partition holding the extra
key 7, which is covered by the partition but not by the graph, so it cannot
appear in the output. -/
theorem C10_witness :
    (∃ pos, community_layout exSolverW exSolver gOne pExtra = some pos ∧
      keysD pos = gOne.nodes ∧
      ∀ k, k ∉ gOne.nodes → lookupD pos k = none) ∧
    (7 : Node) ∈ keysD pExtra ∧ (7 : Node) ∉ gOne.nodes :=
  ⟨C10_extra_partition_keys_ignored exSolverW exSolver gOne pExtra
      (by decide) (by decide) (by decide) (by decide),
    by decide, by decide⟩
